import Mathlib

/-!
Verification of the parallel pairwise name-matching engine
(`PairwiseNameComparator.pyx`) against its specification.

The Cython source works on NUL-terminated C byte strings.  We model a C
string as a `List Nat` of its bytes (excluding the terminating NUL); the
space byte is `32`.  `strcmp`-equality between such strings is list
equality.  All machine arithmetic is modelled on `Nat`/`Int` with explicit
`% 2 ^ 64` where the C code computes in `unsigned long`.

Undefined behaviour is modelled with `Option`: `tradeout_table_lookup`
computes `hash_val % tt.capacity` and when the table was built from an
empty mapping the capacity is `0`, so the C program performs a division by
zero (undefined behaviour, in practice a SIGFPE).  The embedding returns
`none` in exactly that situation, and every function that can reach a
lookup is `Option`-valued, propagating the undefined-behaviour marker.
-/

namespace PairwiseNameComparator

/-- A C string: the list of its bytes (NUL terminator omitted). -/
abbrev CStr := List Nat

/-- One step of `hash_string`: `hash_val = ((hash_val << 5) + hash_val) + c`
computed in 64-bit `unsigned long` arithmetic, where `c` is the byte read
through a (signed, on x86-64 Linux) plain `char`, hence bytes `≥ 128`
contribute their value minus 256. -/
def hash_step (h : Nat) (c : Nat) : Nat :=
  ((33 * (h : Int) + (if c < 128 then (c : Int) else (c : Int) - 256)) % (2 ^ 64 : Int)).toNat

/-- The function `hash_string`: the djb2 hash (seed 5381, multiplier 33) of a C string,
folded over its bytes. -/
def hash_string (s : CStr) : Nat := s.foldl hash_step 5381

/-- The function `string_set_contains`: linear scan of a `StringSet` comparing with
`strcmp`; the set is modelled as the list of its member strings. -/
def string_set_contains (ss : List CStr) (s : CStr) : Bool := ss.any (· == s)

/-- Loop body of `count_words`: walks the bytes keeping the `in_word` flag,
incrementing the count when a word starts. -/
def count_words_go : List Nat → Bool → Nat → Nat
  | [], _, count => count
  | c :: s, in_word, count =>
    if c = 32 then count_words_go s false count
    else if in_word then count_words_go s true count
    else count_words_go s true (count + 1)

/-- The function `count_words`: number of maximal runs of non-space bytes. -/
def count_words (s : CStr) : Nat := count_words_go s false 0

/-- Loop body of `extract_word`.  State: remaining input, requested
`word_index`, `current_word` (incremented when a word starts), `in_word`
flag, the output accumulated so far, and `max_len` (the output buffer
size; at most `max_len - 1` bytes are copied).  This mirrors the source
exactly, including the early return at a space when
`in_word and current_word == word_index` — note the source compares with
`word_index`, not `word_index + 1`. -/
def extract_word_go : List Nat → Nat → Nat → Bool → List Nat → Nat → List Nat
  | [], _, _, _, out, _ => out
  | c :: s, word_index, current_word, in_word, out, max_len =>
    if c = 32 then
      if in_word = true ∧ current_word = word_index then out
      else extract_word_go s word_index current_word false out max_len
    else
      if in_word = true then
        extract_word_go s word_index current_word true
          (if current_word = word_index + 1 ∧ out.length < max_len - 1 then out ++ [c] else out)
          max_len
      else
        extract_word_go s word_index (current_word + 1) true
          (if current_word + 1 = word_index + 1 ∧ out.length < max_len - 1 then out ++ [c] else out)
          max_len

/-- The function `extract_word`: extract the `word_index`-th word of `s` into a buffer of
`max_len` bytes (so at most `max_len - 1` payload bytes). -/
def extract_word (s : CStr) (word_index : Nat) (max_len : Nat) : CStr :=
  extract_word_go s word_index 0 false [] max_len

/-- One slot payload of the tradeout table: the owned key string and its
tradeout `StringSet` (modelled as the list of its members, in insertion
order). -/
abbrev WordTradeouts := CStr × List CStr

/-- The `TradeoutTable`: `capacity` slots, each either empty (`none`, i.e.
`word == NULL`) or holding a `WordTradeouts`.  `capacity` is the length of
`entries`. -/
structure TradeoutTable where
  entries : List (Option WordTradeouts)
deriving DecidableEq

/-- The slot-search loop of `create_tradeout_table`:
`while tt.entries[index].word != NULL: index = (index + 1) % tt.capacity`.
The C loop has no guard and would spin forever on a full table; the fuel
(always called with `entries.length`, enough to visit every slot) returns
`none` exactly when the loop would not find a free slot within one sweep,
i.e. when the C code would not terminate. -/
def find_free_slot (entries : List (Option WordTradeouts)) : Nat → Nat → Option Nat
  | _, 0 => none
  | index, fuel + 1 =>
    match entries.getD index none with
    | none => some index
    | some _ => find_free_slot entries ((index + 1) % entries.length) fuel

/-- The `for match in matches` loop of `create_tradeout_table`: appends each
synonym to the tradeout set, stopping (`break`) once
`tradeout_set.size >= tradeout_set.capacity`.  (The malloc-failure
`continue` is not modelled: allocation always succeeds.) -/
def add_matches : Nat → List CStr → List CStr → List CStr
  | _, tradeout_set, [] => tradeout_set
  | capacity, tradeout_set, m :: rest =>
    if capacity ≤ tradeout_set.length then tradeout_set
    else add_matches capacity (tradeout_set ++ [m]) rest

/-- The tradeout set built for one key: capacity `len(matches) + 1`; the key
itself is added first when it is exactly one byte long, then the supplied
synonyms. -/
def build_tradeout_set (word : CStr) (ms : List CStr) : List CStr :=
  add_matches (ms.length + 1) (if word.length = 1 then [word] else []) ms

/-- Insertion of one key into the open-addressing table:
`index = hash_string(word) % capacity`, then linear probing to the first
empty slot.  `entries.length = 0` cannot occur on this path in the source
(the insertion loop only runs for a non-empty dict, which gives a positive
capacity); the guard mirrors the `%` by the capacity. -/
def table_insert (entries : List (Option WordTradeouts)) (word : CStr) (ts : List CStr) :
    Option (List (Option WordTradeouts)) :=
  if entries.length = 0 then none
  else
    (find_free_slot entries (hash_string word % entries.length) entries.length).map
      (fun i => entries.set i (some (word, ts)))

/-- The function `create_tradeout_table`: capacity is twice the number of keys; the keys
are inserted in mapping order (a Python dict iterates in insertion order),
each with its built tradeout set. -/
def create_tradeout_table (word_to_matches : List (CStr × List CStr)) : Option TradeoutTable :=
  (word_to_matches.foldlM
      (fun entries km => table_insert entries km.1 (build_tradeout_set km.1 km.2))
      (List.replicate (2 * word_to_matches.length) (none : Option WordTradeouts))).map
    TradeoutTable.mk

/-- The probe loop of `tradeout_table_lookup`: check the slot, advance by
linear probing, and stop (`break`, returning NULL = `none`) when the index
wraps back to `start` (the full-table cycle guard).  The fuel is always
`entries.length`; the guard fires before the fuel can run out, so the
`fuel = 0` branch is unreachable. -/
def probe_lookup (entries : List (Option WordTradeouts)) (word : CStr) (start : Nat) :
    Nat → Nat → Option (List CStr)
  | _, 0 => none
  | index, fuel + 1 =>
    match entries.getD index none with
    | none => none
    | some (k, ts) =>
      if k = word then some ts
      else
        let index2 := (index + 1) % entries.length
        if index2 = start then none
        else probe_lookup entries word start index2 fuel

/-- The function `tradeout_table_lookup`: `index = hash_string(word) % tt.capacity`, then
the probe loop.  When the capacity is `0` (table built from an empty
mapping) the C code divides by zero — undefined behaviour — modelled as the
outer `none`.  Otherwise `some r` with `r` the C return value (`none` for
NULL / not found). -/
def tradeout_table_lookup (tt : TradeoutTable) (word : CStr) : Option (Option (List CStr)) :=
  if tt.entries.length = 0 then none
  else
    some (probe_lookup tt.entries word (hash_string word % tt.entries.length)
      (hash_string word % tt.entries.length) tt.entries.length)

/-- One outer iteration of the counting loops of `validate_match`: does the
word `w` (already extracted from one name) match into `other` (with
`len_other` words)?  First the direct `strcmp` scan over the words of
`other`; on no direct match (the `for ... else`), the tradeout set of `w`
is looked up and each word of `other` is tested for membership.  `none`
propagates the undefined behaviour of the lookup. -/
def word_has_match (w : CStr) (other : CStr) (len_other : Nat) (tt : TradeoutTable) :
    Option Bool :=
  if (List.range len_other).any (fun j => extract_word other j 1024 == w) then some true
  else
    match tradeout_table_lookup tt w with
    | none => none
    | some none => some false
    | some (some ts) =>
      some ((List.range len_other).any (fun j => string_set_contains ts (extract_word other j 1024)))

/-- The full counting loop of `validate_match` for one direction: how many
of the words of `a` have a (direct or tradeout) match in `b`.  Word buffers
are 1024 bytes (`word_buf[1024]`), so each extracted word carries at most
1023 bytes. -/
def count_matching_words (a b : CStr) (tt : TradeoutTable) : Option Nat :=
  (List.range (count_words a)).foldlM
    (fun acc i =>
      (word_has_match (extract_word a i 1024) b (count_words b) tt).map
        (fun m => acc + if m then 1 else 0))
    0

/-- The function `validate_match`: reject immediately when either name has fewer than two
words; otherwise count matches in both directions and apply the acceptance
rules in source order.  `some true` / `some false` are the C results 1 / 0;
`none` marks a run that hits the undefined-behaviour lookup. -/
def validate_match (name_a name_b : CStr) (tt : TradeoutTable) : Option Bool :=
  let len_a := count_words name_a
  let len_b := count_words name_b
  if len_a < 2 ∨ len_b < 2 then some false
  else
    (count_matching_words name_a name_b tt).bind (fun matches_a_in_b =>
      (count_matching_words name_b name_a tt).bind (fun matches_b_in_a =>
        let num_mismatches_a := len_a - matches_a_in_b
        let num_mismatches_b := len_b - matches_b_in_a
        if len_a = 3 ∧ num_mismatches_a ≠ 0 ∧ 3 ≤ len_b then some false
        else if len_b = 3 ∧ num_mismatches_b ≠ 0 ∧ 3 ≤ len_a then some false
        else if len_b - num_mismatches_b < 2 ∨ len_a - num_mismatches_a < 2 then some false
        else some true))

/-- Bytes treated as separators by Python `str.split()` (restricted to the
single-byte range; names are UTF-8, and multi-byte code points never
contain these bytes). -/
def is_py_space (c : Nat) : Bool :=
  c == 32 || c == 9 || c == 10 || c == 11 || c == 12 || c == 13 ||
    c == 28 || c == 29 || c == 30 || c == 31

/-- Word counter underlying `len(n.split())`: number of maximal runs of
non-whitespace bytes (Python `split()` with no argument). -/
def py_word_count_go : List Nat → Bool → Nat → Nat
  | [], _, count => count
  | c :: s, in_word, count =>
    if is_py_space c then py_word_count_go s false count
    else if in_word then py_word_count_go s true count
    else py_word_count_go s true (count + 1)

/-- Number of words of `s` in the sense of Python `s.split()`. -/
def py_word_count (s : CStr) : Nat := py_word_count_go s false 0

/-- The scan-domain filter of `parallel_find_matches`:
`valid_names = [n for n in all_names if len(n.split()) >= 2]`. -/
def scan_domain (all_names : List CStr) : List CStr :=
  all_names.filter (fun n => 2 ≤ py_word_count n)

/-- The inner loop of the scan for outer index `i`: walk the given inner
indices `j`, validate the pair, and append accepted pairs (in `j` order) to
the thread-local buffer. -/
def scan_inner (valid : List CStr) (tt : TradeoutTable) (i : Nat) :
    List Nat → Option (List (CStr × CStr))
  | [] => some []
  | j :: js =>
    (validate_match (valid.getD i []) (valid.getD j []) tt).bind (fun ok =>
      (scan_inner valid tt i js).map (fun rest =>
        if ok then (valid.getD i [], valid.getD j []) :: rest else rest))

/-- The work done for one outer index `i`: inner indices run from `i + 1` to
`n - 1` (`for j in range(i + 1, n_names)`). -/
def scan_row (valid : List CStr) (tt : TradeoutTable) (i : Nat) : Option (List (CStr × CStr)) :=
  scan_inner valid tt i (List.range' (i + 1) (valid.length - (i + 1)))

/-- The scan over the outer indices in the order given.  OpenMP dynamic
scheduling hands each outer index `i` (whole, with its complete inner loop)
to one worker; the merge phase concatenates the per-worker buffers in
worker order.  The resulting list is therefore the concatenation of the
rows along some permutation `order` of `range n`; `order = range n` is the
single-threaded run. -/
def scan_rows (valid : List CStr) (tt : TradeoutTable) : List Nat → Option (List (CStr × CStr))
  | [] => some []
  | i :: rest_order =>
    (scan_row valid tt i).bind (fun row =>
      (scan_rows valid tt rest_order).map (fun rest => row ++ rest))

/-- The function `parallel_find_matches`: build the tradeout table from the mapping,
filter the names to the scan domain, and run the all-pairs scan.  `order`
is the merge-order of the outer indices produced by the dynamic schedule
(see `scan_rows`); the unused `pair_to_names` argument of the source and
the thread-count resolution (which only influences `order`) are not
modelled. -/
def parallel_find_matches (all_names : List CStr) (word_to_matches : List (CStr × List CStr))
    (order : List Nat) : Option (List (CStr × CStr)) :=
  (create_tradeout_table word_to_matches).bind (fun tt =>
    scan_rows (scan_domain all_names) tt order)

/-- Modelled from the spec: the first word of a name — the leading maximal
run of non-space bytes after any leading spaces.  Used only to state what
`extract_word` actually computes. -/
def first_word (s : CStr) : CStr := (s.dropWhile (· == 32)).takeWhile (fun c => c != 32)

/-- Modelled from the spec (claim C9): replace every word of a name by its
first 1023 bytes, keeping all space structure. -/
def truncate_words_go : List Nat → Nat → List Nat
  | [], _ => []
  | c :: s, n =>
    if c = 32 then 32 :: truncate_words_go s 0
    else if n < 1023 then c :: truncate_words_go s (n + 1)
    else truncate_words_go s (n + 1)

/-- Truncate every word of `s` to at most 1023 bytes. -/
def truncate_words (s : CStr) : CStr := truncate_words_go s 0

/-!
What `extract_word` actually computes

The early return of `extract_word` fires at the first space while
`current_word == word_index`; since `current_word` is `k` exactly while
word `k - 1` (0-based) is being scanned, the call for any `word_index ≥ 1`
returns before a single byte of the requested word has been copied.  The
function therefore returns the (1023-byte-truncated) first word for index
0 and the empty string for every positive index.
-/

theorem extract_word_go_pos (s : CStr) (k : Nat) :
    ∀ current_word : Nat, ∀ in_word : Bool, 1 ≤ k → current_word ≤ k →
      (in_word = false → current_word < k) →
      extract_word_go s k current_word in_word [] 1024 = [] := by
  induction s with
  | nil => intro cw iw _ _ _; rfl
  | cons c s ih =>
    intro cw iw hk hle hlt
    rw [extract_word_go]
    cases iw with
    | false =>
      have hcw : cw < k := hlt rfl
      by_cases hc : c = 32
      · rw [if_pos hc, if_neg (fun h => nomatch h.1)]
        exact ih cw false hk hle (fun _ => hcw)
      · rw [if_neg hc, if_neg (fun h => nomatch h), if_neg (fun h => absurd h.1 (by omega))]
        exact ih (cw + 1) true hk (by omega) (fun h => nomatch h)
    | true =>
      by_cases hc : c = 32
      · by_cases hret : cw = k
        · rw [if_pos hc, if_pos ⟨rfl, hret⟩]
        · rw [if_pos hc, if_neg (fun h => hret h.2)]
          exact ih cw false hk hle (fun _ => Nat.lt_of_le_of_ne hle hret)
      · rw [if_neg hc, if_pos rfl, if_neg (fun h => absurd h.1 (by omega))]
        exact ih cw true hk hle (fun h => nomatch h)

theorem extract_word_pos (s : CStr) (k : Nat) (hk : 1 ≤ k) :
    extract_word s k 1024 = [] :=
  extract_word_go_pos s k 0 false hk (Nat.zero_le _) (fun _ => hk)

theorem extract_word_go_done (s : CStr) :
    ∀ current_word : Nat, ∀ in_word : Bool, ∀ out : List Nat,
      2 ≤ current_word ∨ (current_word = 1 ∧ in_word = false) →
      extract_word_go s 0 current_word in_word out 1024 = out := by
  induction s with
  | nil => intro cw iw out _; rfl
  | cons c s ih =>
    intro cw iw out h
    have hcw1 : 1 ≤ cw := by rcases h with h | ⟨h1, _⟩ <;> omega
    rw [extract_word_go]
    cases iw with
    | false =>
      by_cases hc : c = 32
      · rw [if_pos hc, if_neg (fun hx => nomatch hx.1)]
        refine ih cw false out ?_
        rcases h with h | ⟨h1, _⟩
        · exact Or.inl h
        · exact Or.inr ⟨h1, rfl⟩
      · rw [if_neg hc, if_neg (fun hx => nomatch hx), if_neg (fun hx => absurd hx.1 (by omega))]
        exact ih (cw + 1) true out (Or.inl (by omega))
    | true =>
      have hcw2 : 2 ≤ cw := by
        rcases h with h | ⟨_, hf⟩
        · exact h
        · exact nomatch hf
      by_cases hc : c = 32
      · rw [if_pos hc, if_neg (fun hx => by omega)]
        exact ih cw false out (Or.inl hcw2)
      · rw [if_neg hc, if_pos rfl, if_neg (fun hx => absurd hx.1 (by omega))]
        exact ih cw true out (Or.inl hcw2)

theorem extract_word_go_inword (s : CStr) :
    ∀ out : List Nat,
      extract_word_go s 0 1 true out 1024 =
        out ++ (s.takeWhile (fun c => c != 32)).take (1023 - out.length) := by
  induction s with
  | nil => intro out; simp [extract_word_go]
  | cons c s ih =>
    intro out
    rw [extract_word_go]
    by_cases hc : c = 32
    · rw [if_pos hc, if_neg (fun hx => by omega),
        extract_word_go_done s 1 false out (Or.inr ⟨rfl, rfl⟩)]
      have ht : (c :: s).takeWhile (fun c => c != 32) = [] := by
        rw [List.takeWhile_cons, if_neg (by simp [hc])]
      rw [ht]
      simp
    · have ht : (c :: s).takeWhile (fun c => c != 32) = c :: s.takeWhile (fun c => c != 32) := by
        rw [List.takeWhile_cons, if_pos (by simp [hc])]
      by_cases hlen : out.length < 1023
      · rw [if_neg hc, if_pos rfl, if_pos ⟨rfl, by omega⟩, ih (out ++ [c]), ht]
        have harith : 1023 - out.length = (1023 - (out ++ [c]).length) + 1 := by
          rw [List.length_append, List.length_singleton]; omega
        rw [harith, List.take_succ_cons, List.append_assoc]
        rfl
      · rw [if_neg hc, if_pos rfl, if_neg (fun hx => absurd hx.2 (by omega)), ih out, ht]
        have harith : 1023 - out.length = 0 := by omega
        rw [harith]
        simp

theorem extract_word_zero (s : CStr) :
    extract_word s 0 1024 = (first_word s).take 1023 := by
  unfold extract_word first_word
  induction s with
  | nil => rfl
  | cons c s ih =>
    rw [extract_word_go]
    by_cases hc : c = 32
    · rw [if_pos hc, if_neg (fun hx => nomatch hx.1), ih]
      have hd : (c :: s).dropWhile (· == 32) = s.dropWhile (· == 32) := by
        rw [List.dropWhile_cons, if_pos (by simp [hc])]
      rw [hd]
    · rw [if_neg hc, if_neg (fun hx => nomatch hx), if_pos ⟨rfl, by simp⟩,
        extract_word_go_inword s ([] ++ [c])]
      have hd : (c :: s).dropWhile (· == 32) = c :: s := by
        rw [List.dropWhile_cons, if_neg (by simp [hc])]
      rw [hd]
      have ht : (c :: s).takeWhile (fun c => c != 32) = c :: s.takeWhile (fun c => c != 32) := by
        rw [List.takeWhile_cons, if_pos (by simp [hc])]
      rw [ht, List.take_succ_cons]
      rfl

theorem extract_word_eq (s : CStr) (k : Nat) :
    extract_word s k 1024 = if k = 0 then (first_word s).take 1023 else [] := by
  by_cases hk : k = 0
  · rw [if_pos hk, hk, extract_word_zero]
  · rw [if_neg hk, extract_word_pos s k (by omega)]

/-!
Word truncation (claim C9): helper lemmas

Replacing every word by its first 1023 bytes changes neither the word
count nor any value `extract_word` can return.
-/

theorem count_words_go_truncate (s : CStr) :
    ∀ count : Nat,
      (count_words_go (truncate_words_go s 0) false count = count_words_go s false count) ∧
        (∀ n : Nat, count_words_go (truncate_words_go s n) true count
          = count_words_go s true count) := by
  induction s with
  | nil => intro count; exact ⟨rfl, fun _ => rfl⟩
  | cons c s ih =>
    intro count
    constructor
    · by_cases hc : c = 32
      · rw [truncate_words_go, if_pos hc, count_words_go, if_pos rfl, count_words_go, if_pos hc]
        exact (ih count).1
      · rw [truncate_words_go, if_neg hc, if_pos (by omega), count_words_go, if_neg hc,
          if_neg (fun hx => nomatch hx), count_words_go, if_neg hc,
          if_neg (fun hx => nomatch hx)]
        exact (ih (count + 1)).2 1
    · intro n
      by_cases hc : c = 32
      · rw [truncate_words_go, if_pos hc, count_words_go, if_pos rfl, count_words_go, if_pos hc]
        exact (ih count).1
      · by_cases hn : n < 1023
        · rw [truncate_words_go, if_neg hc, if_pos hn, count_words_go, if_neg hc, if_pos rfl,
            count_words_go, if_neg hc, if_pos rfl]
          exact (ih count).2 (n + 1)
        · rw [truncate_words_go, if_neg hc, if_neg hn, count_words_go, if_neg hc, if_pos rfl]
          exact (ih count).2 (n + 1)

theorem count_words_truncate (s : CStr) : count_words (truncate_words s) = count_words s :=
  (count_words_go_truncate s 0).1

theorem dropWhile_truncate (s : CStr) :
    (truncate_words_go s 0).dropWhile (· == 32) = truncate_words_go (s.dropWhile (· == 32)) 0 := by
  induction s with
  | nil => rfl
  | cons c s ih =>
    by_cases hc : c = 32
    · rw [truncate_words_go, if_pos hc, List.dropWhile_cons, if_pos (by simp [hc]),
        List.dropWhile_cons, if_pos (by simp [hc])]
      exact ih
    · rw [truncate_words_go, if_neg hc, if_pos (by omega), List.dropWhile_cons,
        if_neg (by simp [hc]), List.dropWhile_cons, if_neg (by simp [hc]), truncate_words_go,
        if_neg hc, if_pos (by omega)]

theorem takeWhile_truncate (s : CStr) :
    ∀ n : Nat, (truncate_words_go s n).takeWhile (fun c => c != 32)
      = (s.takeWhile (fun c => c != 32)).take (1023 - n) := by
  induction s with
  | nil => intro n; simp [truncate_words_go]
  | cons c s ih =>
    intro n
    by_cases hc : c = 32
    · rw [truncate_words_go, if_pos hc, List.takeWhile_cons, if_neg (by simp [hc]),
        List.takeWhile_cons, if_neg (by simp [hc]), List.take_nil]
    · by_cases hn : n < 1023
      · rw [truncate_words_go, if_neg hc, if_pos hn, List.takeWhile_cons, if_pos (by simp [hc]),
          List.takeWhile_cons, if_pos (by simp [hc]), ih (n + 1)]
        have harith : 1023 - n = (1023 - (n + 1)) + 1 := by omega
        rw [harith, List.take_succ_cons]
      · rw [truncate_words_go, if_neg hc, if_neg hn, List.takeWhile_cons, if_pos (by simp [hc]),
          ih (n + 1)]
        have h1 : 1023 - n = 0 := by omega
        have h2 : 1023 - (n + 1) = 0 := by omega
        rw [h1, h2]
        simp

theorem first_word_truncate (s : CStr) :
    first_word (truncate_words s) = (first_word s).take 1023 := by
  unfold first_word truncate_words
  rw [dropWhile_truncate, takeWhile_truncate]

theorem extract_word_truncate (s : CStr) (k : Nat) :
    extract_word (truncate_words s) k 1024 = extract_word s k 1024 := by
  rw [extract_word_eq, extract_word_eq, first_word_truncate, List.take_take, Nat.min_self]

/-!
Lemmas about `validate_match`
-/

theorem validate_match_congr (A A2 B B2 : CStr) (tt : TradeoutTable)
    (hcA : count_words A = count_words A2) (hcB : count_words B = count_words B2)
    (heA : ∀ k, extract_word A k 1024 = extract_word A2 k 1024)
    (heB : ∀ k, extract_word B k 1024 = extract_word B2 k 1024) :
    validate_match A B tt = validate_match A2 B2 tt := by
  unfold validate_match count_matching_words word_has_match
  simp only [hcA, hcB, heA, heB]

theorem validate_match_symm (A B : CStr) (tt : TradeoutTable) :
    validate_match A B tt = validate_match B A tt := by
  unfold validate_match
  by_cases hlen : count_words A < 2 ∨ count_words B < 2
  · rw [if_pos hlen, if_pos (Or.symm hlen)]
  · rw [if_neg hlen, if_neg (fun hx => hlen (Or.symm hx))]
    cases hab : count_matching_words A B tt with
    | none =>
      cases hba : count_matching_words B A tt with
      | none => rfl
      | some mb => simp [Option.bind]
    | some ma =>
      cases hba : count_matching_words B A tt with
      | none => simp [Option.bind]
      | some mb =>
        simp only [Option.bind]
        split_ifs <;> first | rfl | omega

theorem foldlM_option_count (f : Nat → Option Bool) :
    ∀ (l : List Nat) (acc : Nat), (∀ i ∈ l, f i = some true) →
      (l.foldlM (fun acc2 i => (f i).map (fun m => acc2 + if m then 1 else 0)) acc
        : Option Nat) = some (acc + l.length) := by
  intro l
  induction l with
  | nil => intro acc _; simp
  | cons a l ih =>
    intro acc h
    rw [List.foldlM_cons, h a (List.mem_cons_self a l)]
    show (some (acc + 1) >>= fun acc2 =>
      l.foldlM (fun acc2 i => (f i).map (fun m => acc2 + if m then 1 else 0)) acc2) = _
    rw [Option.bind_eq_bind, Option.some_bind,
      ih (acc + 1) (fun i hi => h i (List.mem_cons_of_mem a hi))]
    simp only [List.length_cons]
    congr 1
    omega

theorem count_matching_words_self (name : CStr) (tt : TradeoutTable) :
    count_matching_words name name tt = some (count_words name) := by
  unfold count_matching_words
  rw [foldlM_option_count _ _ 0 ?_]
  · rw [Nat.zero_add, List.length_range]
  · intro i hi
    unfold word_has_match
    rw [if_pos ?_]
    exact List.any_eq_true.mpr ⟨i, hi, beq_self_eq_true _⟩

theorem validate_match_short (A B : CStr) (tt : TradeoutTable)
    (h : count_words A < 2 ∨ count_words B < 2) :
    validate_match A B tt = some false := by
  unfold validate_match
  rw [if_pos h]

/-!
Lemmas about the scan
-/

theorem getD_inj (l : List CStr) (h : l.Nodup) (i j : Nat) (hi : i < l.length)
    (hj : j < l.length) (he : l.getD i [] = l.getD j []) : i = j := by
  rw [List.getD_eq_getElem l [] hi, List.getD_eq_getElem l [] hj] at he
  have h2 := List.nodup_iff_injective_getElem.mp h
  have h3 : (⟨i, hi⟩ : Fin l.length) = ⟨j, hj⟩ := h2 he
  exact Fin.mk.inj_iff.mp h3

theorem getD_mem (l : List CStr) (i : Nat) (hi : i < l.length) : l.getD i [] ∈ l := by
  rw [List.getD_eq_getElem l [] hi]
  exact List.getElem_mem hi

theorem mem_getD (l : List CStr) (x : CStr) (hx : x ∈ l) :
    ∃ a, a < l.length ∧ l.getD a [] = x := by
  rcases List.mem_iff_get.mp hx with ⟨⟨a, ha⟩, hget⟩
  refine ⟨a, ha, ?_⟩
  rw [List.get_eq_getElem] at hget
  rw [List.getD_eq_getElem l [] ha]
  exact hget

theorem scan_inner_mem (valid : List CStr) (tt : TradeoutTable) (i : Nat) :
    ∀ (js : List Nat) (row : List (CStr × CStr)), scan_inner valid tt i js = some row →
      ∀ p ∈ row, ∃ j, j ∈ js ∧
        validate_match (valid.getD i []) (valid.getD j []) tt = some true ∧
        p = (valid.getD i [], valid.getD j []) := by
  intro js
  induction js with
  | nil =>
    intro row h p hp
    rw [scan_inner] at h
    cases h
    simp at hp
  | cons j js ih =>
    intro row h p hp
    rw [scan_inner] at h
    cases hv : validate_match (valid.getD i []) (valid.getD j []) tt with
    | none => rw [hv] at h; exact absurd h (by simp)
    | some ok =>
      rw [hv, Option.some_bind] at h
      cases hs : scan_inner valid tt i js with
      | none => rw [hs] at h; exact absurd h (by simp)
      | some rest =>
        rw [hs, Option.map_some'] at h
        injection h with h
        subst h
        by_cases hok : ok = true
        · rw [if_pos hok] at hp
          rcases List.mem_cons.mp hp with hp1 | hp1
          · exact ⟨j, List.mem_cons_self j js, by rw [hok] at hv; exact hv, hp1⟩
          · rcases ih rest hs p hp1 with ⟨j2, hj2, hv2, hp2⟩
            exact ⟨j2, List.mem_cons_of_mem j hj2, hv2, hp2⟩
        · rw [if_neg hok] at hp
          rcases ih rest hs p hp with ⟨j2, hj2, hv2, hp2⟩
          exact ⟨j2, List.mem_cons_of_mem j hj2, hv2, hp2⟩

theorem scan_inner_complete (valid : List CStr) (tt : TradeoutTable) (i : Nat) :
    ∀ (js : List Nat) (row : List (CStr × CStr)), scan_inner valid tt i js = some row →
      ∀ j ∈ js, validate_match (valid.getD i []) (valid.getD j []) tt = some true →
        (valid.getD i [], valid.getD j []) ∈ row := by
  intro js
  induction js with
  | nil => intro row _ j hj _; simp at hj
  | cons j0 js ih =>
    intro row h j hj hv
    rw [scan_inner] at h
    cases hv0 : validate_match (valid.getD i []) (valid.getD j0 []) tt with
    | none => rw [hv0] at h; exact absurd h (by simp)
    | some ok =>
      rw [hv0, Option.some_bind] at h
      cases hs : scan_inner valid tt i js with
      | none => rw [hs] at h; exact absurd h (by simp)
      | some rest =>
        rw [hs, Option.map_some'] at h
        injection h with h
        subst h
        rcases List.mem_cons.mp hj with hj1 | hj1
        · subst hj1
          rw [hv0] at hv
          injection hv with hv
          subst hv
          rw [if_pos rfl]
          exact List.mem_cons_self _ _
        · have hmem := ih rest hs j hj1 hv
          by_cases hok : ok = true
          · rw [if_pos hok]
            exact List.mem_cons_of_mem _ hmem
          · rw [if_neg hok]
            exact hmem

theorem scan_row_mem (valid : List CStr) (tt : TradeoutTable) (i : Nat)
    (row : List (CStr × CStr)) (h : scan_row valid tt i = some row) :
    ∀ p ∈ row, ∃ j, i < j ∧ j < valid.length ∧
      validate_match (valid.getD i []) (valid.getD j []) tt = some true ∧
      p = (valid.getD i [], valid.getD j []) := by
  intro p hp
  rcases scan_inner_mem valid tt i _ row h p hp with ⟨j, hj, hv, hpe⟩
  rcases List.mem_range'_1.mp hj with ⟨hj1, hj2⟩
  exact ⟨j, by omega, by omega, hv, hpe⟩

theorem scan_row_complete (valid : List CStr) (tt : TradeoutTable) (i j : Nat)
    (row : List (CStr × CStr)) (h : scan_row valid tt i = some row)
    (hij : i < j) (hj : j < valid.length)
    (hv : validate_match (valid.getD i []) (valid.getD j []) tt = some true) :
    (valid.getD i [], valid.getD j []) ∈ row :=
  scan_inner_complete valid tt i _ row h j (List.mem_range'_1.mpr ⟨by omega, by omega⟩) hv

theorem scan_rows_row_some (valid : List CStr) (tt : TradeoutTable) :
    ∀ (order : List Nat) (res : List (CStr × CStr)), scan_rows valid tt order = some res →
      ∀ i ∈ order, ∃ row, scan_row valid tt i = some row := by
  intro order
  induction order with
  | nil => intro res _ i hi; simp at hi
  | cons i0 order ih =>
    intro res h i hi
    rw [scan_rows] at h
    cases hr : scan_row valid tt i0 with
    | none => rw [hr] at h; exact absurd h (by simp)
    | some row =>
      rw [hr, Option.some_bind] at h
      cases hs : scan_rows valid tt order with
      | none => rw [hs] at h; exact absurd h (by simp)
      | some rest =>
        rcases List.mem_cons.mp hi with hi1 | hi1
        · subst hi1
          exact ⟨row, hr⟩
        · exact ih rest hs i hi1

theorem scan_rows_mem (valid : List CStr) (tt : TradeoutTable) :
    ∀ (order : List Nat) (res : List (CStr × CStr)), scan_rows valid tt order = some res →
      ∀ p ∈ res, ∃ i row, i ∈ order ∧ scan_row valid tt i = some row ∧ p ∈ row := by
  intro order
  induction order with
  | nil =>
    intro res h p hp
    rw [scan_rows] at h
    cases h
    simp at hp
  | cons i order ih =>
    intro res h p hp
    rw [scan_rows] at h
    cases hr : scan_row valid tt i with
    | none => rw [hr] at h; exact absurd h (by simp)
    | some row =>
      rw [hr, Option.some_bind] at h
      cases hs : scan_rows valid tt order with
      | none => rw [hs] at h; exact absurd h (by simp)
      | some rest =>
        rw [hs, Option.map_some'] at h
        injection h with h
        subst h
        rcases List.mem_append.mp hp with hp1 | hp1
        · exact ⟨i, row, List.mem_cons_self _ _, hr, hp1⟩
        · rcases ih rest hs p hp1 with ⟨i2, row2, hi2, hr2, hp2⟩
          exact ⟨i2, row2, List.mem_cons_of_mem _ hi2, hr2, hp2⟩

theorem scan_rows_complete (valid : List CStr) (tt : TradeoutTable) :
    ∀ (order : List Nat) (res : List (CStr × CStr)), scan_rows valid tt order = some res →
      ∀ i row p, i ∈ order → scan_row valid tt i = some row → p ∈ row → p ∈ res := by
  intro order
  induction order with
  | nil => intro res _ i row p hi _ _; simp at hi
  | cons i0 order ih =>
    intro res h i row p hi hr hp
    rw [scan_rows] at h
    cases hr0 : scan_row valid tt i0 with
    | none => rw [hr0] at h; exact absurd h (by simp)
    | some row0 =>
      rw [hr0, Option.some_bind] at h
      cases hs : scan_rows valid tt order with
      | none => rw [hs] at h; exact absurd h (by simp)
      | some rest =>
        rw [hs, Option.map_some'] at h
        injection h with h
        subst h
        rcases List.mem_cons.mp hi with hi1 | hi1
        · subst hi1
          rw [hr0] at hr
          injection hr with hr
          subst hr
          exact List.mem_append_left _ hp
        · exact List.mem_append_right _ (ih rest hs i row p hi1 hr hp)

theorem scan_rows_eq_flatMap (valid : List CStr) (tt : TradeoutTable) :
    ∀ (order : List Nat) (res : List (CStr × CStr)), scan_rows valid tt order = some res →
      res = order.flatMap (fun i => (scan_row valid tt i).getD []) := by
  intro order
  induction order with
  | nil =>
    intro res h
    rw [scan_rows] at h
    cases h
    rfl
  | cons i order ih =>
    intro res h
    rw [scan_rows] at h
    cases hr : scan_row valid tt i with
    | none => rw [hr] at h; exact absurd h (by simp)
    | some row =>
      rw [hr, Option.some_bind] at h
      cases hs : scan_rows valid tt order with
      | none => rw [hs] at h; exact absurd h (by simp)
      | some rest =>
        rw [hs, Option.map_some'] at h
        injection h with h
        subst h
        rw [List.flatMap_cons, hr, ih rest hs]
        rfl

theorem scan_rows_none_iff (valid : List CStr) (tt : TradeoutTable) :
    ∀ order : List Nat,
      scan_rows valid tt order = none ↔ ∃ i ∈ order, scan_row valid tt i = none := by
  intro order
  induction order with
  | nil =>
    constructor
    · intro h
      rw [scan_rows] at h
      exact absurd h (by simp)
    · rintro ⟨i, hi, _⟩
      simp at hi
  | cons i order ih =>
    rw [scan_rows]
    constructor
    · intro h
      cases hr : scan_row valid tt i with
      | none => exact ⟨i, List.mem_cons_self _ _, hr⟩
      | some row =>
        rw [hr, Option.some_bind] at h
        cases hs : scan_rows valid tt order with
        | none =>
          rcases ih.mp hs with ⟨i2, hi2, hr2⟩
          exact ⟨i2, List.mem_cons_of_mem _ hi2, hr2⟩
        | some rest => rw [hs] at h; simp at h
    · rintro ⟨i2, hi2, hr2⟩
      rcases List.mem_cons.mp hi2 with he | hm
      · subst he
        rw [hr2]
        rfl
      · cases hr : scan_row valid tt i with
        | none => rfl
        | some row =>
          rw [Option.some_bind, ih.mpr ⟨i2, hm, hr2⟩]
          rfl

theorem scan_inner_pairwise (valid : List CStr) (tt : TradeoutTable) (hnodup : valid.Nodup)
    (i : Nat) (hin : i < valid.length) :
    ∀ (js : List Nat) (row : List (CStr × CStr)),
      js.Pairwise (· < ·) → (∀ j ∈ js, i < j ∧ j < valid.length) →
      scan_inner valid tt i js = some row →
      row.Pairwise (fun p q => ¬(p.1 = q.1 ∧ p.2 = q.2) ∧ ¬(p.1 = q.2 ∧ p.2 = q.1)) := by
  intro js
  induction js with
  | nil =>
    intro row _ _ h
    rw [scan_inner] at h
    cases h
    exact List.Pairwise.nil
  | cons j js ih =>
    intro row hpw hbound h
    rw [scan_inner] at h
    cases hv : validate_match (valid.getD i []) (valid.getD j []) tt with
    | none => rw [hv] at h; exact absurd h (by simp)
    | some ok =>
      rw [hv, Option.some_bind] at h
      cases hs : scan_inner valid tt i js with
      | none => rw [hs] at h; exact absurd h (by simp)
      | some rest =>
        rw [hs, Option.map_some'] at h
        injection h with h
        subst h
        have hrest := ih rest (List.pairwise_cons.mp hpw).2
          (fun a ha => hbound a (List.mem_cons_of_mem _ ha)) hs
        by_cases hok : ok = true
        · rw [if_pos hok]
          refine List.Pairwise.cons ?_ hrest
          intro q hq
          rcases scan_inner_mem valid tt i js rest hs q hq with ⟨j2, hj2, _, hqe⟩
          have hlt : j < j2 := (List.pairwise_cons.mp hpw).1 j2 hj2
          have hb1 := hbound j (List.mem_cons_self _ _)
          have hb2 := hbound j2 (List.mem_cons_of_mem _ hj2)
          subst hqe
          constructor
          · rintro ⟨_, h2⟩
            exact absurd (getD_inj valid hnodup j j2 hb1.2 hb2.2 h2) (by omega)
          · rintro ⟨h1, _⟩
            have e1 := getD_inj valid hnodup i j2 hin hb2.2 h1
            omega
        · rw [if_neg hok]
          exact hrest

theorem scan_row_pairwise (valid : List CStr) (tt : TradeoutTable) (hnodup : valid.Nodup)
    (i : Nat) (hin : i < valid.length) (row : List (CStr × CStr))
    (h : scan_row valid tt i = some row) :
    row.Pairwise (fun p q => ¬(p.1 = q.1 ∧ p.2 = q.2) ∧ ¬(p.1 = q.2 ∧ p.2 = q.1)) := by
  refine scan_inner_pairwise valid tt hnodup i hin _ row (List.pairwise_lt_range' _ _) ?_ h
  intro j hj
  rcases List.mem_range'_1.mp hj with ⟨hj1, hj2⟩
  exact ⟨by omega, by omega⟩

theorem scan_rows_pairwise (valid : List CStr) (tt : TradeoutTable) (hnodup : valid.Nodup) :
    ∀ (order : List Nat) (res : List (CStr × CStr)),
      order.Nodup → (∀ i ∈ order, i < valid.length) →
      scan_rows valid tt order = some res →
      res.Pairwise (fun p q => ¬(p.1 = q.1 ∧ p.2 = q.2) ∧ ¬(p.1 = q.2 ∧ p.2 = q.1)) := by
  intro order
  induction order with
  | nil =>
    intro res _ _ h
    rw [scan_rows] at h
    cases h
    exact List.Pairwise.nil
  | cons i order ih =>
    intro res hnd hbound h
    rw [scan_rows] at h
    cases hr : scan_row valid tt i with
    | none => rw [hr] at h; exact absurd h (by simp)
    | some row =>
      rw [hr, Option.some_bind] at h
      cases hs : scan_rows valid tt order with
      | none => rw [hs] at h; exact absurd h (by simp)
      | some rest =>
        rw [hs, Option.map_some'] at h
        injection h with h
        subst h
        have hin : i < valid.length := hbound i (List.mem_cons_self _ _)
        rw [List.pairwise_append]
        refine ⟨scan_row_pairwise valid tt hnodup i hin row hr,
          ih rest (List.nodup_cons.mp hnd).2
            (fun a ha => hbound a (List.mem_cons_of_mem _ ha)) hs, ?_⟩
        intro p hp q hq
        rcases scan_row_mem valid tt i row hr p hp with ⟨j, hij, hjn, _, hpe⟩
        rcases scan_rows_mem valid tt order rest hs q hq with ⟨i2, row2, hi2, hr2, hq2⟩
        rcases scan_row_mem valid tt i2 row2 hr2 q hq2 with ⟨j2, hij2, hj2n, _, hqe⟩
        have hi2n : i2 < valid.length := hbound i2 (List.mem_cons_of_mem _ hi2)
        have hne : i ≠ i2 := fun he => (List.nodup_cons.mp hnd).1 (he ▸ hi2)
        subst hpe
        subst hqe
        constructor
        · rintro ⟨h1, _⟩
          exact hne (getD_inj valid hnodup i i2 hin hi2n h1)
        · rintro ⟨h1, h2⟩
          have e1 : i = j2 := getD_inj valid hnodup i j2 hin hj2n h1
          have e2 : j = i2 := getD_inj valid hnodup j i2 hjn hi2n h2
          omega

theorem parallel_find_matches_eq (all_names : List CStr)
    (word_to_matches : List (CStr × List CStr)) (order : List Nat) (tt : TradeoutTable)
    (htt : create_tradeout_table word_to_matches = some tt) :
    parallel_find_matches all_names word_to_matches order =
      scan_rows (scan_domain all_names) tt order := by
  unfold parallel_find_matches
  rw [htt, Option.some_bind]

/-!
The open-addressing table: construction invariant and lookup correctness
-/

theorem slot_getD_set_self (l : List (Option WordTradeouts)) (i : Nat) (v : Option WordTradeouts)
    (hi : i < l.length) : (l.set i v).getD i none = v := by
  rw [List.getD_eq_getElem _ _ (by simpa using hi), List.getElem_set_self]

theorem slot_getD_set_ne (l : List (Option WordTradeouts)) (i j : Nat) (v : Option WordTradeouts)
    (hne : i ≠ j) : (l.set i v).getD j none = l.getD j none := by
  by_cases hj : j < l.length
  · rw [List.getD_eq_getElem _ _ (by simpa using hj), List.getD_eq_getElem _ _ hj,
      List.getElem_set_ne hne]
  · rw [List.getD_eq_default _ _ (by simpa using Nat.le_of_not_lt hj),
      List.getD_eq_default _ _ (Nat.le_of_not_lt hj)]

theorem slot_getD_replicate (n i : Nat) :
    (List.replicate n (none : Option WordTradeouts)).getD i none = none := by
  by_cases hi : i < n
  · rw [List.getD_eq_getElem _ _ (by simpa using hi), List.getElem_replicate]
  · rw [List.getD_eq_default _ _ (by simpa using Nat.le_of_not_lt hi)]

theorem slot_getD_some_lt (l : List (Option WordTradeouts)) (i : Nat) (e : WordTradeouts)
    (h : l.getD i none = some e) : i < l.length := by
  by_contra hi
  rw [List.getD_eq_default _ _ (Nat.le_of_not_lt hi)] at h
  exact absurd h (by simp)

theorem mod_shift_inj (L a u t : Nat) (hu : u < L) (ht : t < L)
    (he : (a + u) % L = (a + t) % L) : u = t := by
  have h2 : a + u ≡ a + t [MOD L] := he
  have h3 : u ≡ t [MOD L] := Nat.ModEq.add_left_cancel' a h2
  have h4 : u % L = t % L := h3
  rw [Nat.mod_eq_of_lt hu, Nat.mod_eq_of_lt ht] at h4
  exact h4

theorem find_free_slot_spec (entries : List (Option WordTradeouts)) :
    ∀ (fuel idx i : Nat), idx < entries.length →
      find_free_slot entries idx fuel = some i →
      ∃ t, t < fuel ∧ i = (idx + t) % entries.length ∧
        (∀ u < t, entries.getD ((idx + u) % entries.length) none ≠ none) ∧
        entries.getD i none = none ∧ i < entries.length := by
  intro fuel
  induction fuel with
  | zero => intro idx i _ h; exact absurd h (by rw [find_free_slot]; simp)
  | succ fuel ih =>
    intro idx i hidx h
    rw [find_free_slot] at h
    cases he : entries.getD idx none with
    | none =>
      rw [he] at h
      injection h with h
      subst h
      exact ⟨0, Nat.succ_pos fuel, by rw [Nat.add_zero, Nat.mod_eq_of_lt hidx],
        fun u hu => absurd hu (by omega), he, hidx⟩
    | some e =>
      rw [he] at h
      have hL : 0 < entries.length := Nat.lt_of_le_of_lt (Nat.zero_le idx) hidx
      rcases ih ((idx + 1) % entries.length) i (Nat.mod_lt _ hL) h with
        ⟨t0, ht0, hieq, hpath, hfree, hilt⟩
      refine ⟨t0 + 1, by omega, ?_, ?_, hfree, hilt⟩
      · rw [hieq, Nat.mod_add_mod]
        congr 1
        omega
      · intro u hu
        cases u with
        | zero =>
          rw [Nat.add_zero, Nat.mod_eq_of_lt hidx, he]
          simp
        | succ u0 =>
          have hp := hpath u0 (by omega)
          rw [Nat.mod_add_mod] at hp
          have harith : idx + 1 + u0 = idx + (u0 + 1) := by omega
          rw [harith] at hp
          exact hp

theorem table_insert_spec (entries entries2 : List (Option WordTradeouts)) (w : CStr)
    (ts : List CStr) (hins : table_insert entries w ts = some entries2) :
    entries2.length = entries.length ∧
    ∃ i t, i < entries.length ∧ entries.getD i none = none ∧
      entries2 = entries.set i (some (w, ts)) ∧
      t < entries.length ∧
      i = (hash_string w % entries.length + t) % entries.length ∧
      ∀ u < t, entries.getD ((hash_string w % entries.length + u) % entries.length) none ≠ none := by
  unfold table_insert at hins
  by_cases hL : entries.length = 0
  · rw [if_pos hL] at hins
    exact absurd hins (by simp)
  · rw [if_neg hL] at hins
    cases hf : find_free_slot entries (hash_string w % entries.length) entries.length with
    | none => rw [hf] at hins; exact absurd hins (by simp)
    | some i =>
      rw [hf, Option.map_some'] at hins
      injection hins with hins
      subst hins
      rcases find_free_slot_spec entries entries.length (hash_string w % entries.length) i
        (Nat.mod_lt _ (Nat.pos_of_ne_zero hL)) hf with ⟨t, ht, hieq, hpath, hfree, hilt⟩
      exact ⟨by rw [List.length_set], i, t, hilt, hfree, rfl, ht, hieq, hpath⟩

/-- The construction invariant of the tradeout table: every filled slot sits
at the end of a gap-free probe path from its key's home slot, filled slots
carry exactly the processed keys with their built tradeout sets, and no key
occupies two slots. -/
structure TableInv (entries : List (Option WordTradeouts))
    (done : List (CStr × List CStr)) : Prop where
  path_ok : ∀ i e, entries.getD i none = some e →
    ∃ t, t < entries.length ∧
      i = (hash_string e.1 % entries.length + t) % entries.length ∧
      ∀ u < t, entries.getD ((hash_string e.1 % entries.length + u) % entries.length) none ≠ none
  keys_done : ∀ i e, entries.getD i none = some e → e.1 ∈ done.map Prod.fst
  slots_for : ∀ km ∈ done, ∃ i, i < entries.length ∧
    entries.getD i none = some (km.1, build_tradeout_set km.1 km.2)
  key_inj : ∀ i j e f, entries.getD i none = some e → entries.getD j none = some f →
    e.1 = f.1 → i = j

theorem tableInv_nil (L : Nat) : TableInv (List.replicate L none) [] := by
  refine ⟨?_, ?_, ?_, ?_⟩
  · intro i e he
    rw [slot_getD_replicate] at he
    exact absurd he (by simp)
  · intro i e he
    rw [slot_getD_replicate] at he
    exact absurd he (by simp)
  · intro km hkm
    simp at hkm
  · intro i j e f he hf _
    rw [slot_getD_replicate] at he
    exact absurd he (by simp)

theorem tableInv_insert (entries entries2 : List (Option WordTradeouts))
    (done : List (CStr × List CStr)) (k : CStr) (ms : List CStr)
    (hinv : TableInv entries done)
    (hnew : k ∉ done.map Prod.fst)
    (hins : table_insert entries k (build_tradeout_set k ms) = some entries2) :
    TableInv entries2 (done ++ [(k, ms)]) := by
  rcases table_insert_spec entries entries2 k (build_tradeout_set k ms) hins with
    ⟨hlen, i0, t0, hi0, hfree0, he2, ht0, hieq0, hpath0⟩
  have hfill : ∀ p, entries.getD p none ≠ none → entries2.getD p none ≠ none := by
    intro p hp
    by_cases hpe : p = i0
    · subst hpe
      rw [he2, slot_getD_set_self entries p _ hi0]
      simp
    · rw [he2, slot_getD_set_ne entries i0 p _ (fun hx => hpe hx.symm)]
      exact hp
  have hslot0 : entries2.getD i0 none = some (k, build_tradeout_set k ms) := by
    rw [he2, slot_getD_set_self entries i0 _ hi0]
  have hold : ∀ p, p ≠ i0 → entries2.getD p none = entries.getD p none := by
    intro p hp
    rw [he2, slot_getD_set_ne entries i0 p _ (fun hx => hp hx.symm)]
  refine ⟨?_, ?_, ?_, ?_⟩
  · intro i e he
    by_cases hi : i = i0
    · subst hi
      rw [hslot0] at he
      injection he with he
      subst he
      refine ⟨t0, by omega, by rw [hlen]; exact hieq0, ?_⟩
      intro u hu
      rw [hlen]
      exact hfill _ (hpath0 u hu)
    · rw [hold i hi] at he
      rcases hinv.path_ok i e he with ⟨t, ht, hieq, hpath⟩
      refine ⟨t, by omega, by rw [hlen]; exact hieq, ?_⟩
      intro u hu
      rw [hlen]
      exact hfill _ (hpath u hu)
  · intro i e he
    by_cases hi : i = i0
    · subst hi
      rw [hslot0] at he
      injection he with he
      subst he
      simp
    · rw [hold i hi] at he
      have := hinv.keys_done i e he
      rw [List.map_append]
      exact List.mem_append_left _ this
  · intro km hkm
    rcases List.mem_append.mp hkm with hkm1 | hkm1
    · rcases hinv.slots_for km hkm1 with ⟨i, hi, hslot⟩
      have hne : i ≠ i0 := by
        intro hx
        subst hx
        rw [hfree0] at hslot
        exact absurd hslot (by simp)
      refine ⟨i, by omega, ?_⟩
      rw [hold i hne]
      exact hslot
    · have hkm2 : km = (k, ms) := by simpa using hkm1
      subst hkm2
      exact ⟨i0, by omega, hslot0⟩
  · intro i j e f he hf hkey
    by_cases hi : i = i0
    · by_cases hj : j = i0
      · rw [hi, hj]
      · subst hi
        rw [hslot0] at he
        injection he with he
        subst he
        rw [hold j hj] at hf
        have := hinv.keys_done j f hf
        rw [← hkey] at this
        exact absurd this hnew
    · by_cases hj : j = i0
      · subst hj
        rw [hslot0] at hf
        injection hf with hf
        subst hf
        rw [hold i hi] at he
        have := hinv.keys_done i e he
        rw [hkey] at this
        exact absurd this hnew
      · rw [hold i hi] at he
        rw [hold j hj] at hf
        exact hinv.key_inj i j e f he hf hkey

theorem create_fold_length :
    ∀ (rest : List (CStr × List CStr)) (e0 efin : List (Option WordTradeouts)),
      List.foldlM
        (fun entries km => table_insert entries km.1 (build_tradeout_set km.1 km.2)) e0 rest
        = some efin →
      efin.length = e0.length := by
  intro rest
  induction rest with
  | nil =>
    intro e0 efin h
    rw [List.foldlM_nil] at h
    injection h with h
    subst h
    rfl
  | cons km rest ih =>
    intro e0 efin h
    rw [List.foldlM_cons] at h
    cases hins : table_insert e0 km.1 (build_tradeout_set km.1 km.2) with
    | none => rw [hins] at h; exact absurd h (by simp)
    | some e1 =>
      rw [hins] at h
      have h2 : List.foldlM
          (fun entries km => table_insert entries km.1 (build_tradeout_set km.1 km.2)) e1 rest
          = some efin := by
        rw [show ((some e1 >>= fun b =>
          List.foldlM (fun entries km =>
            table_insert entries km.1 (build_tradeout_set km.1 km.2)) b rest) =
          List.foldlM (fun entries km =>
            table_insert entries km.1 (build_tradeout_set km.1 km.2)) e1 rest) from rfl] at h
        exact h
      rw [ih e1 efin h2, (table_insert_spec e0 e1 km.1 _ hins).1]

theorem create_fold_inv :
    ∀ (rest done : List (CStr × List CStr)) (e0 efin : List (Option WordTradeouts)),
      TableInv e0 done →
      ((done ++ rest).map Prod.fst).Nodup →
      List.foldlM
        (fun entries km => table_insert entries km.1 (build_tradeout_set km.1 km.2)) e0 rest
        = some efin →
      TableInv efin (done ++ rest) := by
  intro rest
  induction rest with
  | nil =>
    intro done e0 efin hinv _ h
    rw [List.foldlM_nil] at h
    injection h with h
    subst h
    simpa using hinv
  | cons km rest ih =>
    intro done e0 efin hinv hnd h
    rw [List.foldlM_cons] at h
    cases hins : table_insert e0 km.1 (build_tradeout_set km.1 km.2) with
    | none => rw [hins] at h; exact absurd h (by simp)
    | some e1 =>
      rw [hins] at h
      have h2 : List.foldlM
          (fun entries km => table_insert entries km.1 (build_tradeout_set km.1 km.2)) e1 rest
          = some efin := by
        rw [show ((some e1 >>= fun b =>
          List.foldlM (fun entries km =>
            table_insert entries km.1 (build_tradeout_set km.1 km.2)) b rest) =
          List.foldlM (fun entries km =>
            table_insert entries km.1 (build_tradeout_set km.1 km.2)) e1 rest) from rfl] at h
        exact h
      have hnew : km.1 ∉ done.map Prod.fst := by
        intro hmem
        rw [List.map_append] at hnd
        rcases (List.nodup_append.mp hnd) with ⟨_, _, hdisj⟩
        refine hdisj hmem ?_
        rw [List.map_cons]
        exact List.mem_cons_self _ _
      have hinv1 : TableInv e1 (done ++ [km]) := by
        have hx := tableInv_insert e0 e1 done km.1 km.2 hinv hnew hins
        rwa [Prod.mk.eta] at hx
      have hre : (done ++ [km]) ++ rest = done ++ km :: rest := by
        rw [List.append_assoc, List.singleton_append]
      have := ih (done ++ [km]) e1 efin hinv1 (by rw [hre]; exact hnd) h2
      rw [hre] at this
      exact this

theorem create_tradeout_table_inv (input : List (CStr × List CStr)) (tt : TradeoutTable)
    (hc : create_tradeout_table input = some tt)
    (hnd : (input.map Prod.fst).Nodup) :
    TableInv tt.entries input ∧ tt.entries.length = 2 * input.length := by
  unfold create_tradeout_table at hc
  cases hf : List.foldlM
      (fun entries km => table_insert entries km.1 (build_tradeout_set km.1 km.2))
      (List.replicate (2 * input.length) (none : Option WordTradeouts)) input with
  | none => rw [hf] at hc; exact absurd hc (by simp)
  | some efin =>
    rw [hf, Option.map_some'] at hc
    injection hc with hc
    subst hc
    constructor
    · have := create_fold_inv input [] _ efin (tableInv_nil _) (by simpa using hnd) hf
      simpa using this
    · rw [create_fold_length input _ efin hf, List.length_replicate]

theorem probe_lookup_not_found (entries : List (Option WordTradeouts)) (w : CStr) (start : Nat)
    (hno : ∀ i e, entries.getD i none = some e → e.1 ≠ w) :
    ∀ fuel idx, probe_lookup entries w start idx fuel = none := by
  intro fuel
  induction fuel with
  | zero => intro idx; rfl
  | succ fuel ih =>
    intro idx
    cases he : entries.getD idx none with
    | none => simp only [probe_lookup, he]
    | some e =>
      obtain ⟨k, ts⟩ := e
      simp only [probe_lookup, he]
      rw [if_neg (hno idx (k, ts) he)]
      by_cases h2 : (idx + 1) % entries.length = start
      · rw [if_pos h2]
      · rw [if_neg h2]
        exact ih _

theorem probe_lookup_walk (entries : List (Option WordTradeouts)) (w : CStr) (S : List CStr)
    (t : Nat) (ht : t < entries.length)
    (hi : entries.getD ((hash_string w % entries.length + t) % entries.length) none
      = some (w, S))
    (hpath : ∀ u < t,
      entries.getD ((hash_string w % entries.length + u) % entries.length) none ≠ none)
    (huniq : ∀ j e, entries.getD j none = some e → e.1 = w →
      j = (hash_string w % entries.length + t) % entries.length) :
    ∀ d, d ≤ t →
      probe_lookup entries w (hash_string w % entries.length)
        ((hash_string w % entries.length + (t - d)) % entries.length)
        (entries.length - (t - d)) = some S := by
  have hL : 0 < entries.length := by omega
  intro d
  induction d with
  | zero =>
    intro _
    have ht0 : t - 0 = t := by omega
    rw [ht0]
    have hfuel : entries.length - t = (entries.length - t - 1) + 1 := by omega
    rw [hfuel]
    simp only [probe_lookup, hi]
    rw [if_pos trivial]
  | succ d ihd =>
    intro hd
    have hu : t - (d + 1) < t := by omega
    cases hx : entries.getD ((hash_string w % entries.length + (t - (d + 1)))
        % entries.length) none with
    | none => exact absurd hx (hpath _ hu)
    | some e =>
      obtain ⟨k, ts⟩ := e
      have hkw : k ≠ w := by
        intro hkx
        have hj := huniq _ (k, ts) hx hkx
        have hne := mod_shift_inj entries.length (hash_string w % entries.length)
          (t - (d + 1)) t (by omega) ht hj
        omega
      have hfuel : entries.length - (t - (d + 1))
          = (entries.length - (t - (d + 1)) - 1) + 1 := by omega
      rw [hfuel]
      simp only [probe_lookup, hx]
      rw [if_neg hkw]
      have hstep : ((hash_string w % entries.length + (t - (d + 1))) % entries.length + 1)
          % entries.length
          = (hash_string w % entries.length + (t - d)) % entries.length := by
        rw [Nat.mod_add_mod]
        congr 1
        omega
      rw [hstep]
      have hguard : (hash_string w % entries.length + (t - d)) % entries.length
          ≠ hash_string w % entries.length := by
        intro hg
        have h0 : (hash_string w % entries.length + (t - d)) % entries.length
            = (hash_string w % entries.length + 0) % entries.length := by
          rw [Nat.add_zero, Nat.mod_eq_of_lt (Nat.mod_lt _ hL)]
          exact hg
        have hz := mod_shift_inj entries.length (hash_string w % entries.length)
          (t - d) 0 (by omega) (by omega) h0
        omega
      rw [if_neg hguard]
      have hfuel2 : entries.length - (t - (d + 1)) - 1 = entries.length - (t - d) := by omega
      rw [hfuel2]
      exact ihd (by omega)

theorem add_matches_eq : ∀ (ms : List CStr) (cap : Nat) (acc : List CStr),
    acc.length + ms.length ≤ cap → add_matches cap acc ms = acc ++ ms := by
  intro ms
  induction ms with
  | nil =>
    intro cap acc _
    rw [add_matches, List.append_nil]
  | cons m ms ih =>
    intro cap acc h
    simp only [List.length_cons] at h
    rw [add_matches, if_neg (by omega), ih cap (acc ++ [m]) (by
      simp only [List.length_append, List.length_singleton]
      omega)]
    rw [List.append_assoc, List.singleton_append]

theorem build_tradeout_set_eq (k : CStr) (ms : List CStr) :
    build_tradeout_set k ms = (if k.length = 1 then [k] else []) ++ ms := by
  unfold build_tradeout_set
  refine add_matches_eq ms _ _ ?_
  by_cases hk : k.length = 1
  · rw [if_pos hk]
    simp only [List.length_singleton]
    omega
  · rw [if_neg hk]
    simp only [List.length_nil]
    omega

theorem tradeout_table_lookup_spec (input : List (CStr × List CStr)) (tt : TradeoutTable)
    (w : CStr) (hc : create_tradeout_table input = some tt) (hne : input ≠ [])
    (hnd : (input.map Prod.fst).Nodup) :
    (∃ ms, (w, ms) ∈ input ∧
      tradeout_table_lookup tt w = some (some (build_tradeout_set w ms))) ∨
    ((∀ S, (w, S) ∉ input) ∧ tradeout_table_lookup tt w = some none) := by
  rcases create_tradeout_table_inv input tt hc hnd with ⟨hinv, hlen⟩
  have hL : 0 < tt.entries.length := by
    rw [hlen]
    cases input with
    | nil => exact absurd rfl hne
    | cons a l =>
      simp only [List.length_cons]
      omega
  have hlookup : tradeout_table_lookup tt w
      = some (probe_lookup tt.entries w (hash_string w % tt.entries.length)
        (hash_string w % tt.entries.length) tt.entries.length) := by
    unfold tradeout_table_lookup
    rw [if_neg (by omega)]
  by_cases hkey : w ∈ input.map Prod.fst
  · rcases List.mem_map.mp hkey with ⟨km, hkm, hfst⟩
    subst hfst
    left
    refine ⟨km.2, by rw [Prod.mk.eta]; exact hkm, ?_⟩
    rcases hinv.slots_for km hkm with ⟨i, hi, hslot⟩
    rcases hinv.path_ok i (km.1, build_tradeout_set km.1 km.2) hslot with ⟨t, ht, hieq, hpath⟩
    have huniq : ∀ j e, tt.entries.getD j none = some e → e.1 = km.1 →
        j = (hash_string km.1 % tt.entries.length + t) % tt.entries.length := by
      intro j e hj hkeyj
      rw [← hieq]
      exact hinv.key_inj j i e (km.1, build_tradeout_set km.1 km.2) hj hslot hkeyj
    have hwalk := probe_lookup_walk tt.entries km.1 (build_tradeout_set km.1 km.2) t ht
      (by rw [← hieq]; exact hslot) hpath huniq t (Nat.le_refl t)
    have hzero : t - t = 0 := by omega
    rw [hzero, Nat.add_zero, Nat.mod_eq_of_lt (Nat.mod_lt _ hL), Nat.sub_zero] at hwalk
    rw [hlookup, hwalk]
  · right
    have hno : ∀ i e, tt.entries.getD i none = some e → e.1 ≠ w := by
      intro i e he hkeq
      exact hkey (hkeq ▸ hinv.keys_done i e he)
    constructor
    · intro S hS
      exact hkey (List.mem_map.mpr ⟨(w, S), hS, rfl⟩)
    · rw [hlookup, probe_lookup_not_found tt.entries w (hash_string w % tt.entries.length) hno
        tt.entries.length (hash_string w % tt.entries.length)]

/-!
The claims
-/

/-- C1: `validate_match` is symmetric — for every tradeout table (also one
built from a non-symmetric synonym mapping) and all byte strings `A`, `B`,
`validate_match A B tt = validate_match B A tt`.  Both runs either return
the same boolean or both hit the same undefined-behaviour lookup. -/
theorem c1_validate_match_symmetric (A B : CStr) (tt : TradeoutTable) :
    validate_match A B tt = validate_match B A tt :=
  validate_match_symm A B tt

/-- C2 (code bug): the claim requires `validate_match` to reject
"Alice B Smith" vs "Alice Smith Jones" with no applicable synonyms (a
3-word name with a mismatching word against a 3-word name), but the code
accepts the pair.  Root cause, witnessed by the second conjunct: the
early-return of `extract_word` compares `current_word` with `word_index`
instead of `word_index + 1`, so every word of index ≥ 1 extracts as the
empty string; the middle word "B" is never seen and the empty strings of
the two names match each other, leaving both mismatch counters at 0. -/
theorem c2_three_word_rule_failing_input :
    validate_match
        [65, 108, 105, 99, 101, 32, 66, 32, 83, 109, 105, 116, 104]
        [65, 108, 105, 99, 101, 32, 83, 109, 105, 116, 104, 32, 74, 111, 110, 101, 115]
        (TradeoutTable.mk []) = some true ∧
      extract_word [65, 108, 105, 99, 101, 32, 66, 32, 83, 109, 105, 116, 104] 1 1024 = [] ∧
      count_words [65, 108, 105, 99, 101, 32, 66, 32, 83, 109, 105, 116, 104] = 3 ∧
      count_words
        [65, 108, 105, 99, 101, 32, 83, 109, 105, 116, 104, 32, 74, 111, 110, 101, 115] = 3 := by
  decide

/-- C3 (code bug): the claim requires rejecting a 4-word name vs a 2-word
name sharing only one true word ("a p q r" vs "a x", no synonyms): the
matching-word count on the 2-word side is 1 < 2.  The code accepts the
pair: by the `extract_word` bug every word of index ≥ 1 extracts as the
empty string, so the second word of "a x" spuriously "matches" the empty
extraction of the second word of "a p q r", and both counted match numbers
reach the name lengths. -/
theorem c3_two_match_floor_failing_input :
    validate_match [97, 32, 112, 32, 113, 32, 114] [97, 32, 120] (TradeoutTable.mk [])
        = some true ∧
      count_words [97, 32, 112, 32, 113, 32, 114] = 4 ∧
      count_words [97, 32, 120] = 2 := by
  decide

/-- C4: exact equality — for every name with at least two space-delimited
words and every tradeout table, `validate_match` applied to the name and an
identical copy returns true (every word matches itself directly, so no
lookup is reached and no mismatch is counted). -/
theorem c4_exact_equality (name : CStr) (tt : TradeoutTable)
    (h2 : 2 ≤ count_words name) : validate_match name name tt = some true := by
  unfold validate_match
  rw [if_neg (by omega), count_matching_words_self, Option.some_bind, Option.some_bind]
  simp only [Nat.sub_self, Nat.sub_zero]
  rw [if_neg (by omega), if_neg (by omega), if_neg (by omega)]

theorem c4_exact_equality_witness :
    2 ≤ count_words [97, 32, 98] ∧
      validate_match [97, 32, 98] [97, 32, 98] (TradeoutTable.mk []) = some true :=
  ⟨by decide, c4_exact_equality [97, 32, 98] (TradeoutTable.mk []) (by decide)⟩

/-- C5 counterexample: the claim says the result of the scan never contains
a pair of equal names, for every input list including ones with repeated
name values.  With the two-element list ["a b", "a b"] the scan enumerates
the position pair (0, 1), both positions hold the same value, and the
result is exactly the pair ("a b", "a b") — two equal names. -/
theorem c5_duplicate_name_counterexample :
    parallel_find_matches [[97, 32, 98], [97, 32, 98]] [] [0, 1]
      = some [([97, 32, 98], [97, 32, 98])] := by
  decide

/-- C5 (amended): for input lists whose scan domain has no repeated name
value, every run of `parallel_find_matches` (any dynamic-schedule merge
order) contains no pair of equal names, never reports the same unordered
pair twice, and its members are exactly the unordered pairs of distinct
scan-domain names accepted by `validate_match` (with repeated values the
scan pairs positions, so a duplicated value is paired with itself). -/
theorem c5_pair_uniqueness_amended (all_names : List CStr)
    (word_to_matches : List (CStr × List CStr)) (order : List Nat) (tt : TradeoutTable)
    (res : List (CStr × CStr))
    (htt : create_tradeout_table word_to_matches = some tt)
    (hnodup : (scan_domain all_names).Nodup)
    (horder : order.Perm (List.range (scan_domain all_names).length))
    (hres : parallel_find_matches all_names word_to_matches order = some res) :
    (∀ p ∈ res, p.1 ≠ p.2) ∧
    res.Pairwise (fun p q => ¬(p.1 = q.1 ∧ p.2 = q.2) ∧ ¬(p.1 = q.2 ∧ p.2 = q.1)) ∧
    (∀ p ∈ res, p.1 ∈ scan_domain all_names ∧ p.2 ∈ scan_domain all_names ∧
      validate_match p.1 p.2 tt = some true) ∧
    (∀ x y : CStr, x ∈ scan_domain all_names → y ∈ scan_domain all_names → x ≠ y →
      validate_match x y tt = some true → (x, y) ∈ res ∨ (y, x) ∈ res) := by
  rw [parallel_find_matches_eq all_names word_to_matches order tt htt] at hres
  have hbound : ∀ i ∈ order, i < (scan_domain all_names).length := by
    intro i hi
    exact List.mem_range.mp (horder.mem_iff.mp hi)
  have hordnd : order.Nodup := horder.nodup_iff.mpr (List.nodup_range _)
  refine ⟨?_, ?_, ?_, ?_⟩
  · intro p hp
    rcases scan_rows_mem _ tt order res hres p hp with ⟨i, row, hi, hr, hprow⟩
    rcases scan_row_mem _ tt i row hr p hprow with ⟨j, hij, hjn, hv, hpe⟩
    subst hpe
    intro heq
    have := getD_inj _ hnodup i j (hbound i hi) hjn heq
    omega
  · exact scan_rows_pairwise _ tt hnodup order res hordnd hbound hres
  · intro p hp
    rcases scan_rows_mem _ tt order res hres p hp with ⟨i, row, hi, hr, hprow⟩
    rcases scan_row_mem _ tt i row hr p hprow with ⟨j, hij, hjn, hv, hpe⟩
    subst hpe
    exact ⟨getD_mem _ i (hbound i hi), getD_mem _ j hjn, hv⟩
  · intro x y hx hy hxy hv
    rcases mem_getD _ x hx with ⟨a, ha, hxa⟩
    rcases mem_getD _ y hy with ⟨b, hb, hyb⟩
    have hab : a ≠ b := fun he => hxy (by rw [← hxa, ← hyb, he])
    rcases Nat.lt_or_ge a b with hlt | hge
    · have haord : a ∈ order := horder.mem_iff.mpr (List.mem_range.mpr ha)
      rcases scan_rows_row_some _ tt order res hres a haord with ⟨row, hrow⟩
      left
      rw [← hxa, ← hyb]
      exact scan_rows_complete _ tt order res hres a row _ haord hrow
        (scan_row_complete _ tt a b row hrow hlt hb (by rw [hxa, hyb]; exact hv))
    · have hlt : b < a := by omega
      have hbord : b ∈ order := horder.mem_iff.mpr (List.mem_range.mpr hb)
      rcases scan_rows_row_some _ tt order res hres b hbord with ⟨row, hrow⟩
      right
      rw [← hxa, ← hyb]
      exact scan_rows_complete _ tt order res hres b row _ hbord hrow
        (scan_row_complete _ tt b a row hrow hlt ha
          (by rw [validate_match_symm, hxa, hyb]; exact hv))

theorem c5_pair_uniqueness_witness :
    (∀ p ∈ [([97, 32, 98], [97, 32, 99])], (p : CStr × CStr).1 ≠ p.2) ∧
    List.Pairwise (fun p q : CStr × CStr =>
      ¬(p.1 = q.1 ∧ p.2 = q.2) ∧ ¬(p.1 = q.2 ∧ p.2 = q.1)) [([97, 32, 98], [97, 32, 99])] ∧
    (∀ p ∈ [([97, 32, 98], [97, 32, 99])],
      (p : CStr × CStr).1 ∈ scan_domain [[97, 32, 98], [97, 32, 99]] ∧
      p.2 ∈ scan_domain [[97, 32, 98], [97, 32, 99]] ∧
      validate_match p.1 p.2 (TradeoutTable.mk []) = some true) ∧
    (∀ x y : CStr, x ∈ scan_domain [[97, 32, 98], [97, 32, 99]] →
      y ∈ scan_domain [[97, 32, 98], [97, 32, 99]] → x ≠ y →
      validate_match x y (TradeoutTable.mk []) = some true →
      (x, y) ∈ [([97, 32, 98], [97, 32, 99])] ∨ (y, x) ∈ [([97, 32, 98], [97, 32, 99])]) :=
  c5_pair_uniqueness_amended [[97, 32, 98], [97, 32, 99]] [] [0, 1] (TradeoutTable.mk [])
    [([97, 32, 98], [97, 32, 99])] (by decide) (by decide) (by decide) (by decide)

/-- C6 counterexample: the claim says every name with fewer than 2 words (a
word being a maximal run of non-space bytes) is excluded from the scan
domain.  The name "a\tb" (bytes [97, 9, 98]) has a single space-delimited
word, yet the scan-domain filter counts Python `split()` words (any
whitespace), sees two, and keeps the name. -/
theorem c6_scan_domain_counterexample :
    scan_domain [[97, 9, 98]] = [[97, 9, 98]] ∧ count_words [97, 9, 98] = 1 := by
  decide

/-- C6 (amended): `validate_match` returns false immediately whenever either
argument has fewer than 2 space-delimited words, and every name occurring
in an output pair of `parallel_find_matches` has at least 2 space-delimited
words — so a name with fewer than 2 words appears in no output pair.  (The
scan-domain filter itself counts Python `split()` words, i.e. any
whitespace, so a name such as "a\tb" stays in the scan domain while still
never matching.) -/
theorem c6_two_word_minimum_amended :
    (∀ (A B : CStr) (tt : TradeoutTable), count_words A < 2 ∨ count_words B < 2 →
      validate_match A B tt = some false) ∧
    (∀ (all_names : List CStr) (word_to_matches : List (CStr × List CStr)) (order : List Nat)
      (res : List (CStr × CStr)),
      parallel_find_matches all_names word_to_matches order = some res →
      ∀ p ∈ res, 2 ≤ count_words p.1 ∧ 2 ≤ count_words p.2) := by
  constructor
  · exact validate_match_short
  · intro all_names wtm order res hres p hp
    cases hc : create_tradeout_table wtm with
    | none =>
      unfold parallel_find_matches at hres
      rw [hc, Option.none_bind] at hres
      exact absurd hres (by simp)
    | some tt =>
      rw [parallel_find_matches_eq all_names wtm order tt hc] at hres
      rcases scan_rows_mem _ tt order res hres p hp with ⟨i, row, hi, hr, hprow⟩
      rcases scan_row_mem _ tt i row hr p hprow with ⟨j, hij, hjn, hv, hpe⟩
      subst hpe
      constructor
      · show 2 ≤ count_words ((scan_domain all_names).getD i [])
        by_contra hlt
        rw [validate_match_short _ _ tt (Or.inl (by omega))] at hv
        simp at hv
      · show 2 ≤ count_words ((scan_domain all_names).getD j [])
        by_contra hlt
        rw [validate_match_short _ _ tt (Or.inr (by omega))] at hv
        simp at hv

theorem c6_two_word_minimum_witness :
    validate_match [97] [97, 32, 98] (TradeoutTable.mk []) = some false ∧
      (∀ p ∈ [([97, 32, 98], [97, 32, 99])],
        2 ≤ count_words (p : CStr × CStr).1 ∧ 2 ≤ count_words p.2) :=
  ⟨c6_two_word_minimum_amended.1 [97] [97, 32, 98] (TradeoutTable.mk []) (by decide),
    c6_two_word_minimum_amended.2 [[97, 32, 98], [97, 32, 99]] [] [0, 1]
      [([97, 32, 98], [97, 32, 99])] (by decide)⟩

/-- C7 counterexample: the claim says every key maps to a *non-empty*
tradeout set.  For the mapping \x7b"ab": []\x7d — a multi-byte key with no
synonyms — the key is stored with the empty tradeout set: the table's
filled slots are exactly [("ab", [])]. -/
theorem c7_empty_tradeout_set_counterexample :
    (create_tradeout_table [([97, 98], [])]).map (fun tt => tt.entries.filterMap id)
      = some [([97, 98], [])] := by
  decide

/-- C7 (amended): after `create_tradeout_table` succeeds on a mapping (its
keys are distinct), every key of the mapping is present in the table and
maps to a tradeout set that contains every synonym supplied for that key
(none are dropped — the capacity `len(matches) + 1` always suffices), plus
the key itself when the key is exactly one byte long; the set is non-empty
whenever the key is single-byte or at least one synonym was supplied, but
it is empty for a longer key with no synonyms. -/
theorem c7_construction_invariant_amended (input : List (CStr × List CStr))
    (tt : TradeoutTable) (k : CStr) (ms : List CStr)
    (hc : create_tradeout_table input = some tt)
    (hnd : (input.map Prod.fst).Nodup)
    (hmem : (k, ms) ∈ input) :
    ∃ i S, tt.entries.getD i none = some (k, S) ∧
      (∀ m ∈ ms, m ∈ S) ∧ (k.length = 1 → k ∈ S) ∧
      ((k.length = 1 ∨ ms ≠ []) → S ≠ []) := by
  rcases (create_tradeout_table_inv input tt hc hnd).1.slots_for (k, ms) hmem with ⟨i, hi, hslot⟩
  refine ⟨i, build_tradeout_set k ms, hslot, ?_, ?_, ?_⟩
  · intro m hm
    rw [build_tradeout_set_eq]
    exact List.mem_append_right _ hm
  · intro hk
    rw [build_tradeout_set_eq, if_pos hk]
    exact List.mem_append_left _ (List.mem_cons_self _ _)
  · intro hor
    rw [build_tradeout_set_eq]
    rcases hor with hk | hms
    · rw [if_pos hk]
      simp
    · intro hnil
      exact hms (List.append_eq_nil.mp hnil).2

theorem c7_construction_invariant_witness :
    ∃ i S, (TradeoutTable.mk [some ([97], [[97], [98, 99]]), none]).entries.getD i none
        = some ([97], S) ∧
      (∀ m ∈ [[98, 99]], m ∈ S) ∧ (List.length [97] = 1 → [97] ∈ S) ∧
      ((List.length [97] = 1 ∨ ([[98, 99]] : List CStr) ≠ []) → S ≠ []) :=
  c7_construction_invariant_amended [([97], [[98, 99]])]
    (TradeoutTable.mk [some ([97], [[97], [98, 99]]), none]) [97] [[98, 99]]
    (by decide) (by decide) (by decide)

/-- C8 counterexample: the claim says lookup terminates normally for every
table built by `create_tradeout_table`, including one built from an empty
mapping.  The empty mapping gives capacity 0, and the first lookup computes
`hash_val % 0` — a division by zero, undefined behaviour in C (a SIGFPE on
x86-64) — modelled by the `none` result below, not a normal return. -/
theorem c8_empty_mapping_counterexample :
    (create_tradeout_table []).map (fun tt => tradeout_table_lookup tt [97]) = some none := by
  decide

/-- C8 (amended): for every tradeout table built from a *non-empty* mapping
(with distinct keys) and every word, `tradeout_table_lookup` terminates
normally within the full-table cycle guard: it returns the stored tradeout
set when the word is a key of the mapping and NULL (`none`) otherwise. -/
theorem c8_lookup_correct_amended (input : List (CStr × List CStr)) (tt : TradeoutTable)
    (w : CStr) (hc : create_tradeout_table input = some tt) (hne : input ≠ [])
    (hnd : (input.map Prod.fst).Nodup) :
    (∃ ms, (w, ms) ∈ input ∧
      tradeout_table_lookup tt w = some (some (build_tradeout_set w ms))) ∨
    ((∀ S, (w, S) ∉ input) ∧ tradeout_table_lookup tt w = some none) :=
  tradeout_table_lookup_spec input tt w hc hne hnd

theorem c8_lookup_correct_witness :
    ((∃ ms, (([97] : CStr), ms) ∈ [(([97] : CStr), ([[98]] : List CStr))] ∧
      tradeout_table_lookup (TradeoutTable.mk [some ([97], [[97], [98]]), none]) [97]
        = some (some (build_tradeout_set [97] ms))) ∨
    ((∀ S, (([97] : CStr), S) ∉ [(([97] : CStr), ([[98]] : List CStr))]) ∧
      tradeout_table_lookup (TradeoutTable.mk [some ([97], [[97], [98]]), none]) [97]
        = some none)) ∧
    ((∃ ms, (([99] : CStr), ms) ∈ [(([97] : CStr), ([[98]] : List CStr))] ∧
      tradeout_table_lookup (TradeoutTable.mk [some ([97], [[97], [98]]), none]) [99]
        = some (some (build_tradeout_set [99] ms))) ∨
    ((∀ S, (([99] : CStr), S) ∉ [(([97] : CStr), ([[98]] : List CStr))]) ∧
      tradeout_table_lookup (TradeoutTable.mk [some ([97], [[97], [98]]), none]) [99]
        = some none)) :=
  ⟨c8_lookup_correct_amended [([97], [[98]])]
      (TradeoutTable.mk [some ([97], [[97], [98]]), none]) [97]
      (by decide) (by decide) (by decide),
    c8_lookup_correct_amended [([97], [[98]])]
      (TradeoutTable.mk [some ([97], [[97], [98]]), none]) [99]
      (by decide) (by decide) (by decide)⟩

/-- C9: word truncation bound — `validate_match` returns the same result
(the same boolean, or the same undefined-behaviour marker) as it would if
every word of either name longer than 1023 bytes were replaced by its
first 1023 bytes; an over-long word is never an error. -/
theorem c9_truncation_bound (A B : CStr) (tt : TradeoutTable) :
    validate_match A B tt = validate_match (truncate_words A) (truncate_words B) tt :=
  validate_match_congr A (truncate_words A) B (truncate_words B) tt
    (count_words_truncate A).symm (count_words_truncate B).symm
    (fun k => (extract_word_truncate A k).symm) (fun k => (extract_word_truncate B k).symm)

/-- C10: determinism of the result set — for a fixed name list and synonym
mapping, two runs of `parallel_find_matches` whose dynamic schedules merge
the outer indices in any two orders that are permutations of each other
(as any two worker counts produce) yield the same *set* of matched pairs;
only the sequence order may differ. -/
theorem c10_determinism (all_names : List CStr) (word_to_matches : List (CStr × List CStr))
    (order1 order2 : List Nat) (hperm : order1.Perm order2) :
    (parallel_find_matches all_names word_to_matches order1).map List.toFinset =
      (parallel_find_matches all_names word_to_matches order2).map List.toFinset := by
  cases hc : create_tradeout_table word_to_matches with
  | none =>
    unfold parallel_find_matches
    simp only [hc, Option.none_bind]
  | some tt =>
    rw [parallel_find_matches_eq _ _ _ tt hc, parallel_find_matches_eq _ _ _ tt hc]
    cases h1 : scan_rows (scan_domain all_names) tt order1 with
    | none =>
      have h2 : scan_rows (scan_domain all_names) tt order2 = none := by
        rw [scan_rows_none_iff]
        rcases (scan_rows_none_iff _ tt order1).mp h1 with ⟨i, hi, hr⟩
        exact ⟨i, hperm.mem_iff.mp hi, hr⟩
      rw [h2]
    | some res1 =>
      cases h2 : scan_rows (scan_domain all_names) tt order2 with
      | none =>
        rcases (scan_rows_none_iff _ tt order2).mp h2 with ⟨i, hi, hr⟩
        have h3 : scan_rows (scan_domain all_names) tt order1 = none := by
          rw [scan_rows_none_iff]
          exact ⟨i, hperm.mem_iff.mpr hi, hr⟩
        rw [h1] at h3
        exact absurd h3 (by simp)
      | some res2 =>
        rw [Option.map_some', Option.map_some']
        congr 1
        rw [scan_rows_eq_flatMap _ tt order1 res1 h1, scan_rows_eq_flatMap _ tt order2 res2 h2]
        exact List.toFinset_eq_of_perm _ _ (hperm.flatMap_right _)

theorem c10_determinism_witness :
    (parallel_find_matches [[97, 32, 98], [97, 32, 99]] [] [0, 1]).map List.toFinset =
      (parallel_find_matches [[97, 32, 98], [97, 32, 99]] [] [1, 0]).map List.toFinset :=
  c10_determinism [[97, 32, 98], [97, 32, 99]] [] [0, 1] [1, 0] (List.Perm.swap 1 0 [])

end PairwiseNameComparator
